import Mathlib

/-!
Verification of the TCP load balancer core (backend pool, liveness state
machine, selection algorithms, dispatch retry path, proxy error policy)
against a shallow embedding of the Go sources.

Sockets (`net.Conn` values) are modelled by natural-number identifiers;
the `connections` field of a backend (a Go `map[net.Conn]struct{}`, i.e. a
set) is modelled by a `Finset ℕ`.  Time stamps are natural numbers.  Go
machine integers are modelled by `Nat`/`Int` together with explicit
wrap-around where the width is observable: the round-robin counter is a
`uint64` (wraps at `2^64`), `TotalConnections` is an `int64` (wraps into
`[-2^63, 2^63)`).

Operations that, in Go, additionally perform externally visible actions
(closing tracked sockets, broadcasting the wake condition variable)
return a `SideFx` record describing those actions next to the updated
backend state.
-/

/-- Wrap-around of Go signed 64-bit integer arithmetic: the representative
of `x` in `[-2^63, 2^63)`. -/
def int64wrap (x : Int) : Int :=
  (x + 2 ^ 63) % 2 ^ 64 - 2 ^ 63

/-- One upstream target, from `src/backend/backend.go` (`type Backend`).
The Go struct's `sync.RWMutex` and `sync.Cond` have no state of their own;
the condition variable's broadcasts are reported through `SideFx`. -/
structure Backend where
  address : String
  weight : Int
  alive : Bool
  simulatedDown : Bool
  connections : Finset ℕ
  totalConnections : Int
  lastHealthCheck : ℕ
  deriving DecidableEq

instance : Inhabited Backend :=
  ⟨⟨"", 0, false, false, ∅, 0, 0⟩⟩

/-- Externally visible actions of a backend operation: the set of tracked
sockets it closed, and whether it broadcast the wake condition. -/
structure SideFx where
  closed : Finset ℕ
  broadcast : Bool
  deriving DecidableEq

/-- `NewBackendWithWeight` (`backend.go`): alive, empty connection set. -/
def Backend.mkWithWeight (address : String) (weight : Int) (now : ℕ) : Backend :=
  { address := address, weight := weight, alive := true, simulatedDown := false
    connections := ∅, totalConnections := 0, lastHealthCheck := now }

/-- `(*Backend).IsAlive`. -/
def Backend.isAlive (b : Backend) : Bool := b.alive

/-- `(*Backend).GetActiveConnections`: `len(b.connections)`. -/
def Backend.getActiveConnections (b : Backend) : ℕ := b.connections.card

/-- `(*Backend).SetAlive` (`backend.go` lines 224–240): store the flag; on
`true` broadcast the wake condition; on `false` close every tracked socket
and re-initialize the `connections` map. -/
def Backend.setAlive (b : Backend) (alive : Bool) : Backend × SideFx :=
  if alive then
    ({ b with alive := true }, { closed := ∅, broadcast := true })
  else
    ({ b with alive := false, connections := ∅ },
     { closed := b.connections, broadcast := false })

/-- `(*Backend).SetSimulatedDown` (`backend.go` lines 247–265): store the
flag; on `true` close every tracked socket and clear the set (the `Alive`
flag is deliberately left untouched); on `false` broadcast the wake
condition. -/
def Backend.setSimulatedDown (b : Backend) (down : Bool) : Backend × SideFx :=
  if down then
    ({ b with simulatedDown := true, connections := ∅ },
     { closed := b.connections, broadcast := false })
  else
    ({ b with simulatedDown := false }, { closed := ∅, broadcast := true })

/-- `(*Backend).AddConnection`: insert into the tracking map and increment
the (64-bit) `TotalConnections` counter. -/
def Backend.addConnection (b : Backend) (conn : ℕ) : Backend :=
  { b with connections := insert conn b.connections
           totalConnections := int64wrap (b.totalConnections + 1) }

/-- `(*Backend).RemoveConnection`: `delete(b.connections, conn)`. -/
def Backend.removeConnection (b : Backend) (conn : ℕ) : Backend :=
  { b with connections := b.connections.erase conn }

/-- Errors a dial can produce: `ErrBackendDown` for a simulated-down
backend, or an underlying network connect failure. -/
inductive DialErr where
  | backendDown
  | dialFailure
  deriving DecidableEq

/-- `(*Backend).Dial` (`backend.go` lines 342–351).  The surrounding
network is an oracle `net : Option ℕ` giving the socket the TCP connect
would yield (`none` = the connect fails/times out).  The second component
records whether a network connect was attempted at all: when
`SimulatedDown` is set the function returns `ErrBackendDown` before ever
touching the network. -/
def Backend.dial (b : Backend) (net : Option ℕ) : Except DialErr ℕ × Bool :=
  if b.simulatedDown then
    (.error .backendDown, false)
  else
    match net with
    | some s => (.ok s, true)
    | none => (.error .dialFailure, true)

/-- `(*Backend).CheckHealth` (`backend.go` lines 317–336): probe via
`Dial` (so `SimulatedDown` is respected), stamp `LastHealthCheck`, and set
`Alive` to the outcome.  (On success the Go code also closes the probe
socket and broadcasts the wake condition; neither affects the state
fields modelled here.) -/
def Backend.checkHealth (b : Backend) (net : Option ℕ) (now : ℕ) : Backend × Bool :=
  match (b.dial net).1 with
  | .ok _ => ({ b with alive := true, lastHealthCheck := now }, true)
  | .error _ => ({ b with alive := false, lastHealthCheck := now }, false)

/-- The ordered pool of backends, from `src/backend/pool.go`.  (The Go
pool stores `*Backend` pointers; the list order is the pool order.) -/
structure Pool where
  backends : List Backend
  deriving DecidableEq

/-- `(*Pool).GetHealthyBackends` (`pool.go` lines 110–122): the backends
whose `IsAlive()` reads true, in pool order. -/
def Pool.getHealthyBackends (p : Pool) : List Backend :=
  p.backends.filter (·.isAlive)

/-- `(*Pool).Size`. -/
def Pool.size (p : Pool) : ℕ := p.backends.length

/-- `(*Pool).HealthyCount` (`pool.go` lines 160–172): a counting loop over
the backends, incrementing for each one whose `IsAlive()` reads true. -/
def Pool.healthyCount (p : Pool) : ℕ :=
  p.backends.foldl (fun acc b => if b.isAlive then acc + 1 else acc) 0

/-- The counting loop of `HealthyCount`, with an explicit accumulator. -/
theorem healthyCount_loop (l : List Backend) (acc : ℕ) :
    l.foldl (fun acc b => if b.isAlive then acc + 1 else acc) acc
      = acc + (l.filter (·.isAlive)).length := by
  induction l generalizing acc with
  | nil => simp
  | cons b l ih =>
    by_cases hb : b.isAlive <;> simp [List.foldl_cons, ih, hb, List.filter_cons] <;> omega

/-- C10: `healthy_count()` equals the length of the list returned by
`healthy()` on the same pool state: both filter the backend sequence by
`is_alive`, so the count and the snapshot can never disagree. -/
theorem healthyCount_eq_length_getHealthyBackends (p : Pool) :
    p.healthyCount = p.getHealthyBackends.length := by
  simpa using healthyCount_loop p.backends 0

/-- C3: from a state with `alive = true`, `set_alive(false)` closes
exactly the sockets currently tracked and empties the set (so
`active_connections` reads 0 afterward), while `set_alive(true)`
broadcasts the wake condition and leaves the connection set unchanged. -/
theorem setAlive_severs_and_wakes (b : Backend) (halive : b.alive = true) :
    (b.setAlive false).2.closed = b.connections ∧
    (b.setAlive false).1.connections = ∅ ∧
    (b.setAlive false).1.getActiveConnections = 0 ∧
    (b.setAlive false).1.alive = false ∧
    (b.setAlive true).2.broadcast = true ∧
    (b.setAlive true).1.connections = b.connections := by
  refine ⟨rfl, rfl, ?_, rfl, rfl, rfl⟩
  simp [Backend.setAlive, Backend.getActiveConnections]

/-- Witness for C3 at a concrete alive backend holding two sockets. -/
theorem setAlive_severs_and_wakes_witness :
    ((Backend.mk "a" 1 true false {2, 5} 7 0).setAlive false).2.closed
        = ({2, 5} : Finset ℕ) ∧
    ((Backend.mk "a" 1 true false {2, 5} 7 0).setAlive false).1.connections = ∅ ∧
    ((Backend.mk "a" 1 true false {2, 5} 7 0).setAlive false).1.getActiveConnections = 0 ∧
    ((Backend.mk "a" 1 true false {2, 5} 7 0).setAlive false).1.alive = false ∧
    ((Backend.mk "a" 1 true false {2, 5} 7 0).setAlive true).2.broadcast = true ∧
    ((Backend.mk "a" 1 true false {2, 5} 7 0).setAlive true).1.connections
        = ({2, 5} : Finset ℕ) :=
  setAlive_severs_and_wakes (Backend.mk "a" 1 true false {2, 5} 7 0) rfl

/-- C4: a simulated-down backend's `dial` fails fast with `BACKEND_DOWN`
and never attempts a network connect, and `check_health` on it always
fails: it returns `false` and leaves `alive = false`, regardless of the
state of the network. -/
theorem simulatedDown_dial_and_checkHealth (b : Backend) (net : Option ℕ) (now : ℕ)
    (hsim : b.simulatedDown = true) :
    b.dial net = (.error .backendDown, false) ∧
    (b.checkHealth net now).2 = false ∧
    (b.checkHealth net now).1.alive = false := by
  have hd : b.dial net = (.error .backendDown, false) := by
    simp [Backend.dial, hsim]
  refine ⟨hd, ?_, ?_⟩ <;> simp [Backend.checkHealth, hd]

/-- Witness for C4: a simulated-down backend with a perfectly reachable
network address still fails to dial and fails its probe. -/
theorem simulatedDown_dial_and_checkHealth_witness :
    (Backend.mk "a" 1 true true ∅ 0 0).dial (some 9) = (.error .backendDown, false) ∧
    ((Backend.mk "a" 1 true true ∅ 0 0).checkHealth (some 9) 3).2 = false ∧
    ((Backend.mk "a" 1 true true ∅ 0 0).checkHealth (some 9) 3).1.alive = false :=
  simulatedDown_dial_and_checkHealth (Backend.mk "a" 1 true true ∅ 0 0) (some 9) 3 rfl

/-- C9: `set_simulated_down(true)` closes every tracked socket and empties
the set while leaving the `alive` flag untouched (the outage is only
discovered later by a failed dial or probe); `set_simulated_down(false)`
changes nothing but the `simulated_down` flag. -/
theorem setSimulatedDown_frame (b : Backend) :
    (b.setSimulatedDown true).2.closed = b.connections ∧
    (b.setSimulatedDown true).1.connections = ∅ ∧
    (b.setSimulatedDown true).1.alive = b.alive ∧
    (b.setSimulatedDown true).1.simulatedDown = true ∧
    (b.setSimulatedDown false).1 = { b with simulatedDown := false } := by
  exact ⟨rfl, rfl, rfl, rfl, rfl⟩

/-- C7 counterexample: the claim quantifies over every backend state and
socket, but when the socket is already tracked, `add_connection` is a
map-overwrite no-op and the subsequent `remove_connection` deletes it, so
the connection set does not return to its initial value.  Concretely, a
backend already tracking socket 0 ends with an empty set. -/
theorem addConnection_removeConnection_not_roundtrip :
    ¬ (((Backend.mk "a" 1 true false {0} 0 0).addConnection 0).removeConnection 0).connections
        = (Backend.mk "a" 1 true false {0} 0 0).connections := by
  decide

/-- C7 (amended): for a socket `s` not already tracked, `add_connection(s);
remove_connection(s)` restores the connection set while advancing
`total_connections` by exactly 1 in wrapping 64-bit arithmetic; and
`remove_connection(s)` on a state not tracking `s` changes nothing. -/
theorem addConnection_removeConnection_roundtrip (b : Backend) (s : ℕ)
    (hs : s ∉ b.connections) :
    ((b.addConnection s).removeConnection s).connections = b.connections ∧
    ((b.addConnection s).removeConnection s).totalConnections
        = int64wrap (b.totalConnections + 1) ∧
    b.removeConnection s = b := by
  refine ⟨?_, rfl, ?_⟩
  · simp [Backend.addConnection, Backend.removeConnection,
      Finset.erase_insert hs]
  · simp [Backend.removeConnection, Finset.erase_eq_of_not_mem hs]

/-- Witness for C7 (amended) at a concrete backend and fresh socket. -/
theorem addConnection_removeConnection_roundtrip_witness :
    (((Backend.mk "a" 1 true false {1} 5 0).addConnection 4).removeConnection 4).connections
        = (Backend.mk "a" 1 true false {1} 5 0).connections ∧
    (((Backend.mk "a" 1 true false {1} 5 0).addConnection 4).removeConnection 4).totalConnections
        = int64wrap ((Backend.mk "a" 1 true false {1} 5 0).totalConnections + 1) ∧
    (Backend.mk "a" 1 true false {1} 5 0).removeConnection 4
        = Backend.mk "a" 1 true false {1} 5 0 :=
  addConnection_removeConnection_roundtrip (Backend.mk "a" 1 true false {1} 5 0) 4
    (by decide)

/-- The round-robin selector state, from `src/loadbalancer/algorithms.go`
(`type RoundRobin`): `current` is the Go `uint64` counter, so it ranges
over `[0, 2^64)` and its increment wraps. -/
structure RoundRobin where
  current : ℕ
  deriving DecidableEq

/-- `NewRoundRobin`. -/
def RoundRobin.new : RoundRobin := ⟨0⟩

/-- `(*RoundRobin).NextBackend` (`algorithms.go` lines 29–42): snapshot the
healthy backends; if none, return `nil` leaving the counter untouched;
otherwise pick index `current % len` and increment the `uint64` counter
(wrapping at `2^64`).  Returns the selection together with the updated
selector state. -/
def RoundRobin.nextBackend (rr : RoundRobin) (p : Pool) : Option Backend × RoundRobin :=
  let healthyBackends := p.getHealthyBackends
  if h : healthyBackends.length = 0 then
    (none, rr)
  else
    (some (healthyBackends.get
        ⟨rr.current % healthyBackends.length, Nat.mod_lt _ (by omega)⟩),
     ⟨(rr.current + 1) % 2 ^ 64⟩)

/-- C2 counterexample: the claim says each successful call "increments c
by exactly 1", but `current` is a `uint64`: at `c = 2^64 - 1` the
increment wraps to `0`.  Pool with one healthy backend, counter at the
top of the `uint64` range. -/
theorem roundRobin_counter_wraps :
    ¬ ((RoundRobin.mk (2 ^ 64 - 1)).nextBackend
          (Pool.mk [Backend.mk "a" 1 true false ∅ 0 0])).2.current
        = (2 ^ 64 - 1) + 1 := by
  have h : ((RoundRobin.mk (2 ^ 64 - 1)).nextBackend
      (Pool.mk [Backend.mk "a" 1 true false ∅ 0 0])).2.current
      = (2 ^ 64 - 1 + 1) % 2 ^ 64 := rfl
  rw [h]
  omega

/-- C2 (amended): `next` returns `none` iff the healthy snapshot is empty
(leaving the counter untouched); otherwise it returns `h[c mod |h|]` and
sets the counter to `(c + 1) mod 2^64` — an increment by exactly 1 except
at `c = 2^64 - 1`, where the `uint64` counter wraps to 0. -/
theorem roundRobin_nextBackend_spec (rr : RoundRobin) (p : Pool) :
    ((rr.nextBackend p).1 = none ↔ p.getHealthyBackends = []) ∧
    ((rr.nextBackend p).1 = none → (rr.nextBackend p).2 = rr) ∧
    (∀ hne : p.getHealthyBackends ≠ [],
      (rr.nextBackend p).1 = some (p.getHealthyBackends.get
          ⟨rr.current % p.getHealthyBackends.length,
           Nat.mod_lt _ (List.length_pos.mpr hne)⟩) ∧
      (rr.nextBackend p).2.current = (rr.current + 1) % 2 ^ 64) := by
  by_cases h : p.getHealthyBackends.length = 0
  · have hnil : p.getHealthyBackends = [] := List.length_eq_zero.mp h
    refine ⟨?_, ?_, ?_⟩
    · simp [RoundRobin.nextBackend, h, hnil]
    · intro _; simp [RoundRobin.nextBackend, h]
    · intro hne; exact absurd hnil hne
  · have hne : p.getHealthyBackends ≠ [] := by
      intro hnil; exact h (by simp [hnil])
    refine ⟨?_, ?_, ?_⟩
    · constructor
      · intro hnone; exact absurd hnone (by simp [RoundRobin.nextBackend, h])
      · intro hnil; exact absurd hnil hne
    · intro hnone; exact absurd hnone (by simp [RoundRobin.nextBackend, h])
    · intro _; exact ⟨by simp [RoundRobin.nextBackend, h], by simp [RoundRobin.nextBackend, h]⟩

/-- Witness for C2 (amended): two healthy backends, counter 3 selects
index `3 % 2 = 1` and the counter advances to 4. -/
theorem roundRobin_nextBackend_spec_witness :
    (((RoundRobin.mk 3).nextBackend
        (Pool.mk [Backend.mk "a" 1 true false ∅ 0 0,
                  Backend.mk "b" 1 true false ∅ 0 0])).1
        = some (Backend.mk "b" 1 true false ∅ 0 0)) ∧
    (((RoundRobin.mk 3).nextBackend
        (Pool.mk [Backend.mk "a" 1 true false ∅ 0 0,
                  Backend.mk "b" 1 true false ∅ 0 0])).2.current = 4) := by
  have h := (roundRobin_nextBackend_spec (RoundRobin.mk 3)
      (Pool.mk [Backend.mk "a" 1 true false ∅ 0 0,
                Backend.mk "b" 1 true false ∅ 0 0])).2.2 (by decide)
  exact ⟨by rw [h.1]; rfl, by rw [h.2]; rfl⟩

/-- Outcome of one copy direction of the proxy, as seen at its read side:
`none` models `io.Copy` returning a nil error (the source reached
end-of-stream cleanly), `some .eof` models an explicit `io.EOF` value, and
`some (.ioErr k)` any other I/O error (`k` distinguishes errors). -/
inductive CopyErr where
  | eof
  | ioErr (code : ℕ)
  deriving DecidableEq

/-- What one copy goroutine of `Proxy` (`src/proxy/proxy.go` lines 12–43)
sends on the error channel: its `io.Copy` error, unless that error is nil
or `io.EOF` (`if err != nil && err != io.EOF`). -/
def dirSends (r : Option CopyErr) : List CopyErr :=
  match r with
  | none => []
  | some e => if e = .eof then [] else [e]

/-- `Proxy` (`proxy.go` lines 12–43): both directions run concurrently and
send their non-EOF errors on a buffered channel; after both finish the
function returns the first channel element, or nil if the channel is
empty.  `d1First` abstracts the scheduling: whether the client→backend
direction delivered to the channel before the backend→client direction. -/
def proxyResult (d1 d2 : Option CopyErr) (d1First : Bool) : Option CopyErr :=
  let errCh := if d1First then dirSends d1 ++ dirSends d2 else dirSends d2 ++ dirSends d1
  errCh.head?

/-- A direction ended cleanly: no error, or bare end-of-stream. -/
def cleanDir (r : Option CopyErr) : Prop :=
  r = none ∨ r = some .eof

instance (r : Option CopyErr) : Decidable (cleanDir r) := by
  unfold cleanDir; infer_instance

/-- C8: under either interleaving, `proxy` returns success when both
directions end cleanly (EOF included); any returned error is a non-EOF
error of one of the directions — in particular EOF is never reported —
and the error of the direction observed first wins, with the other
direction's non-EOF error returned when the first is clean. -/
theorem proxyResult_spec (d1 d2 : Option CopyErr) (d1First : Bool) :
    (cleanDir d1 ∧ cleanDir d2 → proxyResult d1 d2 d1First = none) ∧
    (∀ e, proxyResult d1 d2 d1First = some e →
      e ≠ .eof ∧ (d1 = some e ∨ d2 = some e)) ∧
    (∀ e, (if d1First then d1 else d2) = some e → e ≠ .eof →
      proxyResult d1 d2 d1First = some e) ∧
    (∀ e, cleanDir (if d1First then d1 else d2) →
      (if d1First then d2 else d1) = some e → e ≠ .eof →
      proxyResult d1 d2 d1First = some e) := by
  have hmem : ∀ {e : CopyErr} {r : Option CopyErr},
      e ∈ dirSends r → r = some e ∧ e ≠ .eof := by
    intro e r h
    rcases r with _ | e'
    · simp [dirSends] at h
    · by_cases he' : e' = CopyErr.eof
      · simp [dirSends, he'] at h
      · simp [dirSends, he'] at h
        subst h; exact ⟨rfl, he'⟩
  have hclean' : ∀ {r : Option CopyErr}, cleanDir r → dirSends r = [] := by
    rintro r (h | h) <;> simp [h, dirSends]
  have hsome : ∀ {e : CopyErr} {r : Option CopyErr}, r = some e → e ≠ .eof →
      dirSends r = [e] := by
    rintro e r rfl hne; simp [dirSends, hne]
  refine ⟨?_, ?_, ?_, ?_⟩
  · rintro ⟨h1, h2⟩
    cases d1First <;> simp [proxyResult, hclean' h1, hclean' h2]
  · intro e he
    have hin : e ∈ (if d1First then dirSends d1 ++ dirSends d2
        else dirSends d2 ++ dirSends d1) := by
      have : ∀ (l : List CopyErr), l.head? = some e → e ∈ l := by
        intro l hl; cases l with
        | nil => simp at hl
        | cons a l => simp at hl; simp [hl]
      exact this _ he
    cases d1First <;> simp at hin <;>
      rcases hin with hin | hin <;> rcases hmem hin with ⟨heq, hne⟩ <;>
      exact ⟨hne, by simp [heq]⟩
  · intro e he hne
    cases d1First <;> simp_all [proxyResult]
  · intro e hclean he hne
    cases d1First <;> simp_all [proxyResult, hclean' hclean]

/-- Witness for C8: first direction hits a genuine I/O error, second ends
at EOF; the proxy reports the I/O error and both clean-path clauses hold
vacuously or concretely. -/
theorem proxyResult_spec_witness :
    (cleanDir (some (CopyErr.ioErr 7)) ∧ cleanDir (some .eof) →
      proxyResult (some (CopyErr.ioErr 7)) (some .eof) true = none) ∧
    (∀ e, proxyResult (some (CopyErr.ioErr 7)) (some .eof) true = some e →
      e ≠ .eof ∧ (some (CopyErr.ioErr 7) = some e ∨ (some .eof : Option CopyErr) = some e)) ∧
    (∀ e, (if true then some (CopyErr.ioErr 7) else some CopyErr.eof) = some e → e ≠ .eof →
      proxyResult (some (CopyErr.ioErr 7)) (some .eof) true = some e) ∧
    (∀ e, cleanDir (if true then some (CopyErr.ioErr 7) else some CopyErr.eof) →
      (if true then some CopyErr.eof else some (CopyErr.ioErr 7)) = some e → e ≠ .eof →
      proxyResult (some (CopyErr.ioErr 7)) (some .eof) true = some e) :=
  proxyResult_spec (some (CopyErr.ioErr 7)) (some .eof) true

/-- Observable events of one run of `handleConnection`
(`src/loadbalancer/loadbalancer.go` lines 201–235), in program order.
Backends are identified by their index into the pool (standing for the Go
`*Backend` pointer). -/
inductive DispatchEv where
  | selectNone
  | select (idx : ℕ)
  | dialOk (idx : ℕ) (conn : ℕ)
  | dialFail (idx : ℕ)
  | setAliveFalse (idx : ℕ)
  | proxyRun (idx : ℕ)
  | closeClient
  deriving DecidableEq

/-- Whether an event is a dial attempt (successful or failed). -/
def isDialEv : DispatchEv → Bool
  | .dialOk _ _ => true
  | .dialFail _ => true
  | _ => false

/-- The retry loop of `handleConnection`: `fuel` is the remaining number
of iterations (initially `maxRetries := lb.pool.Size()`, evaluated once),
`attempt` the current attempt number (used to index the network oracle),
`pool` the current backend list, `ast` the selection algorithm's private
state.  The algorithm is abstracted as `alg`, returning the index of the
chosen backend plus its updated state, or `none`.  On a failed dial the
chosen backend is passed through `SetAlive(false)` in place and the loop
continues; on success the connection is proxied and the function returns.
(The Go `defer`s that untrack and close the backend socket after
`proxy.Proxy` returns are not modelled: they act after the events of
interest.)  Returns the event trace of the loop. -/
def dispatchLoop {σ : Type} (alg : σ → Pool → Option (ℕ × σ)) (net : ℕ → Option ℕ) :
    ℕ → ℕ → Pool → σ → List DispatchEv
  | 0, _, _, _ => []
  | fuel + 1, attempt, pool, ast =>
    match alg ast pool with
    | none => [.selectNone]
    | some (idx, ast1) =>
      let b := pool.backends.getD idx default
      match (b.dial (net attempt)).1 with
      | .ok c => [.select idx, .dialOk idx c, .proxyRun idx]
      | .error _ =>
        .select idx :: .dialFail idx :: .setAliveFalse idx ::
          dispatchLoop alg net fuel (attempt + 1)
            (Pool.mk (pool.backends.set idx (b.setAlive false).1)) ast1

/-- `handleConnection`: run the retry loop with `maxRetries = pool.Size()`
evaluated once before the loop; the deferred `clientConn.Close()` fires on
every exit path, so `closeClient` is always the final event. -/
def handleConnection {σ : Type} (alg : σ → Pool → Option (ℕ × σ)) (net : ℕ → Option ℕ)
    (pool : Pool) (ast : σ) : List DispatchEv :=
  dispatchLoop alg net pool.size 0 pool ast ++ [.closeClient]


/-- Unfolding of the retry loop when the algorithm returns no backend. -/
theorem dispatchLoop_eq_none {σ : Type} {alg : σ → Pool → Option (ℕ × σ)}
    {net : ℕ → Option ℕ} {fuel attempt : ℕ} {pool : Pool} {ast : σ}
    (h : alg ast pool = none) :
    dispatchLoop alg net (fuel + 1) attempt pool ast = [.selectNone] := by
  unfold dispatchLoop; rw [h]

/-- Unfolding of the retry loop when the chosen backend dials cleanly. -/
theorem dispatchLoop_eq_ok {σ : Type} {alg : σ → Pool → Option (ℕ × σ)}
    {net : ℕ → Option ℕ} {fuel attempt : ℕ} {pool : Pool} {ast : σ}
    {idx : ℕ} {ast1 : σ} {c : ℕ}
    (h : alg ast pool = some (idx, ast1))
    (hd : ((pool.backends.getD idx default).dial (net attempt)).1 = .ok c) :
    dispatchLoop alg net (fuel + 1) attempt pool ast
      = [.select idx, .dialOk idx c, .proxyRun idx] := by
  unfold dispatchLoop; rw [h]; dsimp only; rw [hd]

/-- Unfolding of the retry loop when the chosen backend's dial fails: mark
it dead in place and continue with one fewer attempt. -/
theorem dispatchLoop_eq_err {σ : Type} {alg : σ → Pool → Option (ℕ × σ)}
    {net : ℕ → Option ℕ} {fuel attempt : ℕ} {pool : Pool} {ast : σ}
    {idx : ℕ} {ast1 : σ} {e : DialErr}
    (h : alg ast pool = some (idx, ast1))
    (hd : ((pool.backends.getD idx default).dial (net attempt)).1 = .error e) :
    dispatchLoop alg net (fuel + 1) attempt pool ast
      = .select idx :: .dialFail idx :: .setAliveFalse idx ::
          dispatchLoop alg net fuel (attempt + 1)
            (Pool.mk (pool.backends.set idx
              ((pool.backends.getD idx default).setAlive false).1)) ast1 := by
  conv_lhs => unfold dispatchLoop
  rw [h]; dsimp only; rw [hd]

/-- The retry loop performs at most `fuel` dial attempts. -/
theorem dispatchLoop_dials_le {σ : Type} (alg : σ → Pool → Option (ℕ × σ))
    (net : ℕ → Option ℕ) (fuel attempt : ℕ) (pool : Pool) (ast : σ) :
    (dispatchLoop alg net fuel attempt pool ast).countP isDialEv ≤ fuel := by
  induction fuel generalizing attempt pool ast with
  | zero => simp [dispatchLoop]
  | succ fuel ih =>
    cases halg : alg ast pool with
    | none => rw [dispatchLoop_eq_none halg]; simp [isDialEv]
    | some r =>
      obtain ⟨idx, ast1⟩ := r
      cases hdial : ((pool.backends.getD idx default).dial (net attempt)).1 with
      | ok c => rw [dispatchLoop_eq_ok halg hdial]; simp [isDialEv]
      | error e =>
        rw [dispatchLoop_eq_err halg hdial]
        have := ih (attempt + 1)
          (Pool.mk (pool.backends.set idx
            ((pool.backends.getD idx default).setAlive false).1)) ast1
        simp only [List.countP_cons]
        simp [isDialEv]
        simp only [List.getD_eq_getElem?_getD] at this
        omega

/-- In the retry loop's trace, a failed dial on backend `idx` is
immediately followed by `SetAlive(false)` on that same backend. -/
theorem dispatchLoop_dialFail_setAlive {σ : Type} (alg : σ → Pool → Option (ℕ × σ))
    (net : ℕ → Option ℕ) (fuel attempt : ℕ) (pool : Pool) (ast : σ) (k idx : ℕ)
    (h : (dispatchLoop alg net fuel attempt pool ast)[k]? = some (.dialFail idx)) :
    (dispatchLoop alg net fuel attempt pool ast)[k + 1]? = some (.setAliveFalse idx) := by
  induction fuel generalizing attempt pool ast k with
  | zero => simp [dispatchLoop] at h
  | succ fuel ih =>
    cases halg : alg ast pool with
    | none =>
      rw [dispatchLoop_eq_none halg] at h
      match k with
      | 0 => simp at h
      | k + 1 => simp at h
    | some r =>
      obtain ⟨idx1, ast1⟩ := r
      cases hdial : ((pool.backends.getD idx1 default).dial (net attempt)).1 with
      | ok c =>
        rw [dispatchLoop_eq_ok halg hdial] at h
        match k with
        | 0 => simp at h
        | 1 => simp at h
        | 2 => simp at h
        | k + 3 => simp at h
      | error e =>
        rw [dispatchLoop_eq_err halg hdial] at h ⊢
        match k with
        | 0 => simp at h
        | 1 => simp at h; simp [h]
        | 2 => simp at h
        | k + 3 =>
          simp only [List.getElem?_cons_succ] at h ⊢
          exact ih (attempt + 1) _ ast1 k h

/-- In the retry loop's trace, `selectNone` only ever occurs as the very
last event: the loop returns as soon as the algorithm yields no backend. -/
theorem dispatchLoop_selectNone_last {σ : Type} (alg : σ → Pool → Option (ℕ × σ))
    (net : ℕ → Option ℕ) (fuel attempt : ℕ) (pool : Pool) (ast : σ) (k : ℕ)
    (h : (dispatchLoop alg net fuel attempt pool ast)[k]? = some .selectNone) :
    (dispatchLoop alg net fuel attempt pool ast).length = k + 1 := by
  induction fuel generalizing attempt pool ast k with
  | zero => simp [dispatchLoop] at h
  | succ fuel ih =>
    cases halg : alg ast pool with
    | none =>
      rw [dispatchLoop_eq_none halg] at h ⊢
      match k with
      | 0 => simp
      | k + 1 => simp at h
    | some r =>
      obtain ⟨idx1, ast1⟩ := r
      cases hdial : ((pool.backends.getD idx1 default).dial (net attempt)).1 with
      | ok c =>
        rw [dispatchLoop_eq_ok halg hdial] at h
        match k with
        | 0 => simp at h
        | 1 => simp at h
        | 2 => simp at h
        | k + 3 => simp at h
      | error e =>
        rw [dispatchLoop_eq_err halg hdial] at h ⊢
        match k with
        | 0 => simp at h
        | 1 => simp at h
        | 2 => simp at h
        | k + 3 =>
          simp only [List.getElem?_cons_succ] at h
          have := ih (attempt + 1) _ ast1 k h
          simp only [List.length_cons, this]

/-- C1: for every client handled by the dispatch path — any selection
algorithm, network behavior, pool and algorithm state — at most
`pool.Size()` dial attempts occur (the bound evaluated once before the
loop); every failed dial is immediately followed by `SetAlive(false)` on
the selected backend, before any further selection; and whenever the
algorithm returns no backend, dispatch performs no further dial and the
client socket is closed as the very next and final action. -/
theorem handleConnection_dispatch_spec {σ : Type} (alg : σ → Pool → Option (ℕ × σ))
    (net : ℕ → Option ℕ) (pool : Pool) (ast : σ) :
    ((handleConnection alg net pool ast).countP isDialEv ≤ pool.size) ∧
    (∀ k idx, (handleConnection alg net pool ast)[k]? = some (.dialFail idx) →
      (handleConnection alg net pool ast)[k + 1]? = some (.setAliveFalse idx)) ∧
    (∀ k, (handleConnection alg net pool ast)[k]? = some .selectNone →
      (handleConnection alg net pool ast)[k + 1]? = some .closeClient ∧
      (handleConnection alg net pool ast).length = k + 2) ∧
    (pool.backends ≠ [] → alg ast pool = none →
      handleConnection alg net pool ast = [.selectNone, .closeClient]) := by
  have hsingle : ∀ (j : ℕ) (x : DispatchEv),
      ([DispatchEv.closeClient] : List DispatchEv)[j]? = some x → x = .closeClient := by
    intro j x hx
    match j with
    | 0 => simpa using hx.symm
    | j + 1 => simp at hx
  refine ⟨?_, ?_, ?_, ?_⟩
  · unfold handleConnection
    rw [List.countP_append]
    have h1 := dispatchLoop_dials_le alg net pool.size 0 pool ast
    have h2 : (([DispatchEv.closeClient] : List DispatchEv)).countP isDialEv = 0 := by
      simp [isDialEv]
    omega
  · intro k idx h
    unfold handleConnection at h ⊢
    by_cases hk : k < (dispatchLoop alg net pool.size 0 pool ast).length
    · rw [List.getElem?_append_left hk] at h
      have h1 := dispatchLoop_dialFail_setAlive alg net pool.size 0 pool ast k idx h
      have hk1 : k + 1 < (dispatchLoop alg net pool.size 0 pool ast).length := by
        by_contra hge
        push_neg at hge
        rw [List.getElem?_eq_none hge] at h1
        exact Option.noConfusion h1
      rw [List.getElem?_append_left hk1]
      exact h1
    · push_neg at hk
      rw [List.getElem?_append_right hk] at h
      exact absurd (hsingle _ _ h) (by simp)
  · intro k h
    unfold handleConnection at h ⊢
    by_cases hk : k < (dispatchLoop alg net pool.size 0 pool ast).length
    · rw [List.getElem?_append_left hk] at h
      have hlen := dispatchLoop_selectNone_last alg net pool.size 0 pool ast k h
      constructor
      · rw [List.getElem?_append_right (by omega)]
        have : k + 1 - (dispatchLoop alg net pool.size 0 pool ast).length = 0 := by omega
        rw [this]
        rfl
      · simp [hlen]
    · push_neg at hk
      rw [List.getElem?_append_right hk] at h
      exact absurd (hsingle _ _ h) (by simp)
  · intro hne halg
    have hpos : pool.size ≠ 0 := by
      unfold Pool.size
      simpa using hne
    obtain ⟨m, hm⟩ := Nat.exists_eq_succ_of_ne_zero hpos
    unfold handleConnection
    rw [hm, dispatchLoop_eq_none halg]
    rfl

/-- Witness for C1: a two-backend pool whose algorithm immediately
reports no healthy backend; the trace is `selectNone, closeClient` and
every clause of the dispatch contract holds at this instance. -/
theorem handleConnection_dispatch_spec_witness :
    ((handleConnection (fun (_ : Unit) _ => none) (fun _ => none)
        (Pool.mk [Backend.mk "a" 1 false false ∅ 0 0,
                  Backend.mk "b" 1 false false ∅ 0 0]) ()).countP isDialEv
      ≤ (Pool.mk [Backend.mk "a" 1 false false ∅ 0 0,
                  Backend.mk "b" 1 false false ∅ 0 0]).size) ∧
    (∀ k idx, (handleConnection (fun (_ : Unit) _ => none) (fun _ => none)
        (Pool.mk [Backend.mk "a" 1 false false ∅ 0 0,
                  Backend.mk "b" 1 false false ∅ 0 0]) ())[k]? = some (.dialFail idx) →
      (handleConnection (fun (_ : Unit) _ => none) (fun _ => none)
        (Pool.mk [Backend.mk "a" 1 false false ∅ 0 0,
                  Backend.mk "b" 1 false false ∅ 0 0]) ())[k + 1]? = some (.setAliveFalse idx)) ∧
    (∀ k, (handleConnection (fun (_ : Unit) _ => none) (fun _ => none)
        (Pool.mk [Backend.mk "a" 1 false false ∅ 0 0,
                  Backend.mk "b" 1 false false ∅ 0 0]) ())[k]? = some .selectNone →
      (handleConnection (fun (_ : Unit) _ => none) (fun _ => none)
        (Pool.mk [Backend.mk "a" 1 false false ∅ 0 0,
                  Backend.mk "b" 1 false false ∅ 0 0]) ())[k + 1]? = some .closeClient ∧
      (handleConnection (fun (_ : Unit) _ => none) (fun _ => none)
        (Pool.mk [Backend.mk "a" 1 false false ∅ 0 0,
                  Backend.mk "b" 1 false false ∅ 0 0]) ()).length = k + 2) ∧
    ((Pool.mk [Backend.mk "a" 1 false false ∅ 0 0,
               Backend.mk "b" 1 false false ∅ 0 0]).backends ≠ [] →
      (fun (_ : Unit) _ => none) () (Pool.mk [Backend.mk "a" 1 false false ∅ 0 0,
               Backend.mk "b" 1 false false ∅ 0 0]) = (none : Option (ℕ × Unit)) →
      handleConnection (fun (_ : Unit) _ => none) (fun _ => none)
        (Pool.mk [Backend.mk "a" 1 false false ∅ 0 0,
                  Backend.mk "b" 1 false false ∅ 0 0]) ()
        = [.selectNone, .closeClient]) :=
  handleConnection_dispatch_spec (fun (_ : Unit) _ => none) (fun _ => none)
    (Pool.mk [Backend.mk "a" 1 false false ∅ 0 0,
              Backend.mk "b" 1 false false ∅ 0 0]) ()

/-- Modelled from the spec: the selection scan of the least-connections
selector.  `LeastConnections.NextBackend` is only a TODO stub in the
captured `src/loadbalancer/algorithms.go`, so the body is taken from the
spec's words (§4.3): iterate through the healthy backends tracking the
one with the minimum `active_connections()`, the first one winning
ties. -/
def lcScan : Backend → List Backend → Backend
  | best, [] => best
  | best, x :: xs =>
    lcScan (if x.getActiveConnections < best.getActiveConnections then x else best) xs

/-- Modelled from the spec: `LeastConnections.NextBackend` (stateless):
snapshot `h = pool.healthy()`; if empty return `none`; otherwise return
the element of `h` minimizing `active_connections()`, ties broken by pool
order (first wins). -/
def leastConnectionsNextBackend (p : Pool) : Option Backend :=
  match p.getHealthyBackends with
  | [] => none
  | b :: rest => some (lcScan b rest)

/-- The scan's result is drawn from the candidates. -/
theorem lcScan_mem (best : Backend) (l : List Backend) :
    lcScan best l ∈ best :: l := by
  induction l generalizing best with
  | nil => simp [lcScan]
  | cons x xs ih =>
    by_cases hx : x.getActiveConnections < best.getActiveConnections
    · have := ih (if x.getActiveConnections < best.getActiveConnections then x else best)
      rw [if_pos hx] at this
      rcases List.mem_cons.mp this with h | h
      · simp [lcScan, if_pos hx, h]
      · simp [lcScan, if_pos hx, List.mem_cons.mpr (Or.inr h)]
    · have := ih (if x.getActiveConnections < best.getActiveConnections then x else best)
      rw [if_neg hx] at this
      rcases List.mem_cons.mp this with h | h
      · simp [lcScan, if_neg hx, h]
      · simp [lcScan, if_neg hx, List.mem_cons.mpr (Or.inr h)]

/-- The scan's result has minimal connection count among the candidates. -/
theorem lcScan_min (best : Backend) (l : List Backend) :
    (lcScan best l).getActiveConnections ≤ best.getActiveConnections ∧
    ∀ x ∈ l, (lcScan best l).getActiveConnections ≤ x.getActiveConnections := by
  induction l generalizing best with
  | nil => simp [lcScan]
  | cons x xs ih =>
    by_cases hx : x.getActiveConnections < best.getActiveConnections
    · obtain ⟨h1, h2⟩ := ih x
      refine ⟨?_, ?_⟩
      · simp only [lcScan, if_pos hx]; omega
      · intro y hy
        rcases List.mem_cons.mp hy with rfl | hy
        · simp only [lcScan, if_pos hx]; exact h1
        · simp only [lcScan, if_pos hx]; exact h2 y hy
    · obtain ⟨h1, h2⟩ := ih best
      refine ⟨?_, ?_⟩
      · simp only [lcScan, if_neg hx]; exact h1
      · intro y hy
        rcases List.mem_cons.mp hy with rfl | hy
        · simp only [lcScan, if_neg hx]; omega
        · simp only [lcScan, if_neg hx]; exact h2 y hy

/-- First-wins tie-breaking: the scan returns the element at the least
position among those attaining the minimum: every earlier candidate has a
strictly larger connection count. -/
theorem lcScan_first (best : Backend) (l : List Backend) :
    ∃ k : ℕ, ∃ hk : k < (best :: l).length,
      lcScan best l = (best :: l).get ⟨k, hk⟩ ∧
      ∀ m : ℕ, ∀ hm : m < (best :: l).length, m < k →
        (lcScan best l).getActiveConnections
          < ((best :: l).get ⟨m, hm⟩).getActiveConnections := by
  induction l generalizing best with
  | nil =>
    refine ⟨0, by simp, by simp [lcScan], ?_⟩
    intro m hm hm0; omega
  | cons x xs ih =>
    by_cases hx : x.getActiveConnections < best.getActiveConnections
    · obtain ⟨k, hk, hkeq, hmin⟩ := ih x
      have hres : lcScan best (x :: xs) = lcScan x xs := by
        simp only [lcScan, if_pos hx]
      refine ⟨k + 1, by simpa using hk, ?_, ?_⟩
      · rw [hres, hkeq]; rfl
      · intro m hm hmk
        match m with
        | 0 =>
          have hle := (lcScan_min x xs).1
          rw [hres]
          simp only [List.get]
          omega
        | m + 1 =>
          have := hmin m (by simpa using hm) (by omega)
          rw [hres]
          exact this
    · obtain ⟨k, hk, hkeq, hmin⟩ := ih best
      have hres : lcScan best (x :: xs) = lcScan best xs := by
        simp only [lcScan, if_neg hx]
      match k, hk with
      | 0, _ =>
        refine ⟨0, by simp, ?_, ?_⟩
        · rw [hres, hkeq]; rfl
        · intro m hm hm0; omega
      | j + 1, hj =>
        refine ⟨j + 2, by simpa using hj, ?_, ?_⟩
        · rw [hres, hkeq]; rfl
        · intro m hm hmk
          match m with
          | 0 =>
            have := hmin 0 (by simp) (by omega)
            rw [hres]
            simpa using this
          | 1 =>
            have h0 := hmin 0 (by simp) (by omega)
            rw [hres]
            simp only [List.get] at h0 ⊢
            omega
          | m + 2 =>
            have := hmin (m + 1) (by simpa using hm) (by omega)
            rw [hres]
            exact this

/-- C5: the least-connections selector returns `none` exactly when the
healthy snapshot is empty; otherwise it returns an element of the snapshot
with minimal `active_connections()`, and among the minimizers the first in
pool order (every earlier element is strictly busier); in particular when
every healthy backend is equally busy, the head of the snapshot wins. -/
theorem leastConnections_spec (p : Pool) :
    (leastConnectionsNextBackend p = none ↔ p.getHealthyBackends = []) ∧
    (p.getHealthyBackends ≠ [] →
      ∃ k : ℕ, ∃ hk : k < p.getHealthyBackends.length,
        leastConnectionsNextBackend p = some (p.getHealthyBackends.get ⟨k, hk⟩) ∧
        (∀ m : ℕ, ∀ hm : m < p.getHealthyBackends.length,
          (p.getHealthyBackends.get ⟨k, hk⟩).getActiveConnections
            ≤ (p.getHealthyBackends.get ⟨m, hm⟩).getActiveConnections) ∧
        (∀ m : ℕ, ∀ hm : m < p.getHealthyBackends.length, m < k →
          (p.getHealthyBackends.get ⟨k, hk⟩).getActiveConnections
            < (p.getHealthyBackends.get ⟨m, hm⟩).getActiveConnections)) ∧
    ((∀ x ∈ p.getHealthyBackends, ∀ y ∈ p.getHealthyBackends,
        x.getActiveConnections = y.getActiveConnections) →
      leastConnectionsNextBackend p = p.getHealthyBackends.head?) := by
  cases hh : p.getHealthyBackends with
  | nil =>
    refine ⟨?_, ?_, ?_⟩
    · simp [leastConnectionsNextBackend, hh]
    · intro hne; exact absurd rfl hne
    · intro _; simp [leastConnectionsNextBackend, hh]
  | cons b rest =>
    have hlc : leastConnectionsNextBackend p = some (lcScan b rest) := by
      simp [leastConnectionsNextBackend, hh]
    obtain ⟨k, hk, hkeq, hstrict⟩ := lcScan_first b rest
    have hmemle : ∀ m : ℕ, ∀ hm : m < (b :: rest).length,
        (lcScan b rest).getActiveConnections
          ≤ ((b :: rest).get ⟨m, hm⟩).getActiveConnections := by
      intro m hm
      have hmem := List.get_mem (b :: rest) m hm
      rcases List.mem_cons.mp hmem with hcase | hcase
      · rw [hcase]; exact (lcScan_min b rest).1
      · exact (lcScan_min b rest).2 _ hcase
    refine ⟨?_, ?_, ?_⟩
    · rw [hlc]; simp
    · intro _
      refine ⟨k, hk, by rw [hlc, hkeq], ?_, ?_⟩
      · intro m hm
        rw [← hkeq]
        exact hmemle m hm
      · intro m hm hmk
        rw [← hkeq]
        exact hstrict m hm hmk
    · intro hall
      have hk0 : k = 0 := by
        by_contra hk0
        have h1 := hstrict 0 (by simp) (by omega)
        have hmem := lcScan_mem b rest
        have h2 := hall _ hmem b (List.mem_cons_self b rest)
        simp only [List.get] at h1
        omega
      subst hk0
      rw [hlc, hkeq]
      rfl

/-- Witness for C5: healthy pool where the two last backends tie on one
active connection each while the head has two; the selector exists and
picks index 1 (the first minimizer). -/
theorem leastConnections_spec_witness :
    (leastConnectionsNextBackend (Pool.mk [Backend.mk "a" 1 true false {1, 2} 0 0,
        Backend.mk "b" 1 true false {3} 0 0, Backend.mk "c" 1 true false {4} 0 0]) = none
      ↔ (Pool.mk [Backend.mk "a" 1 true false {1, 2} 0 0,
        Backend.mk "b" 1 true false {3} 0 0,
        Backend.mk "c" 1 true false {4} 0 0]).getHealthyBackends = []) ∧
    ((Pool.mk [Backend.mk "a" 1 true false {1, 2} 0 0,
        Backend.mk "b" 1 true false {3} 0 0,
        Backend.mk "c" 1 true false {4} 0 0]).getHealthyBackends ≠ [] →
      ∃ k : ℕ, ∃ hk : k < (Pool.mk [Backend.mk "a" 1 true false {1, 2} 0 0,
          Backend.mk "b" 1 true false {3} 0 0,
          Backend.mk "c" 1 true false {4} 0 0]).getHealthyBackends.length,
        leastConnectionsNextBackend (Pool.mk [Backend.mk "a" 1 true false {1, 2} 0 0,
            Backend.mk "b" 1 true false {3} 0 0, Backend.mk "c" 1 true false {4} 0 0])
          = some ((Pool.mk [Backend.mk "a" 1 true false {1, 2} 0 0,
              Backend.mk "b" 1 true false {3} 0 0,
              Backend.mk "c" 1 true false {4} 0 0]).getHealthyBackends.get ⟨k, hk⟩) ∧
        (∀ m : ℕ, ∀ hm : m < (Pool.mk [Backend.mk "a" 1 true false {1, 2} 0 0,
            Backend.mk "b" 1 true false {3} 0 0,
            Backend.mk "c" 1 true false {4} 0 0]).getHealthyBackends.length,
          ((Pool.mk [Backend.mk "a" 1 true false {1, 2} 0 0,
              Backend.mk "b" 1 true false {3} 0 0,
              Backend.mk "c" 1 true false {4} 0 0]).getHealthyBackends.get
                ⟨k, hk⟩).getActiveConnections
            ≤ ((Pool.mk [Backend.mk "a" 1 true false {1, 2} 0 0,
              Backend.mk "b" 1 true false {3} 0 0,
              Backend.mk "c" 1 true false {4} 0 0]).getHealthyBackends.get
                ⟨m, hm⟩).getActiveConnections) ∧
        (∀ m : ℕ, ∀ hm : m < (Pool.mk [Backend.mk "a" 1 true false {1, 2} 0 0,
            Backend.mk "b" 1 true false {3} 0 0,
            Backend.mk "c" 1 true false {4} 0 0]).getHealthyBackends.length, m < k →
          ((Pool.mk [Backend.mk "a" 1 true false {1, 2} 0 0,
              Backend.mk "b" 1 true false {3} 0 0,
              Backend.mk "c" 1 true false {4} 0 0]).getHealthyBackends.get
                ⟨k, hk⟩).getActiveConnections
            < ((Pool.mk [Backend.mk "a" 1 true false {1, 2} 0 0,
              Backend.mk "b" 1 true false {3} 0 0,
              Backend.mk "c" 1 true false {4} 0 0]).getHealthyBackends.get
                ⟨m, hm⟩).getActiveConnections)) ∧
    ((∀ x ∈ (Pool.mk [Backend.mk "a" 1 true false {1, 2} 0 0,
        Backend.mk "b" 1 true false {3} 0 0,
        Backend.mk "c" 1 true false {4} 0 0]).getHealthyBackends,
      ∀ y ∈ (Pool.mk [Backend.mk "a" 1 true false {1, 2} 0 0,
        Backend.mk "b" 1 true false {3} 0 0,
        Backend.mk "c" 1 true false {4} 0 0]).getHealthyBackends,
        x.getActiveConnections = y.getActiveConnections) →
      leastConnectionsNextBackend (Pool.mk [Backend.mk "a" 1 true false {1, 2} 0 0,
          Backend.mk "b" 1 true false {3} 0 0, Backend.mk "c" 1 true false {4} 0 0])
        = (Pool.mk [Backend.mk "a" 1 true false {1, 2} 0 0,
            Backend.mk "b" 1 true false {3} 0 0,
            Backend.mk "c" 1 true false {4} 0 0]).getHealthyBackends.head?) :=
  leastConnections_spec (Pool.mk [Backend.mk "a" 1 true false {1, 2} 0 0,
    Backend.mk "b" 1 true false {3} 0 0, Backend.mk "c" 1 true false {4} 0 0])

/-- Modelled from the spec: the weighted round-robin selector state.
`WeightedRoundRobin.NextBackend` is only a TODO stub in the captured
`src/loadbalancer/algorithms.go` (the struct with `current` cursor and
`currentWeight` counter is declared there), so the operation is taken
from the spec's words (§4.3). -/
structure WeightedRoundRobin where
  current : ℕ
  currentWeight : ℕ
  deriving DecidableEq

/-- Modelled from the spec: `WeightedRoundRobin.NextBackend`: snapshot
`h = pool.healthy()`; if empty return `none`; let `b = h[i mod |h|]`;
increment the running counter `w`; if `w ≥ b.weight`, reset `w = 0` and
increment the cursor `i`; return `b`.  (`w ≥ b.weight` on Go ints agrees
with the `Int.toNat` comparison below for every weight.) -/
def WeightedRoundRobin.nextBackend (wrr : WeightedRoundRobin) (p : Pool) :
    Option Backend × WeightedRoundRobin :=
  let h := p.getHealthyBackends
  if hl : h.length = 0 then
    (none, wrr)
  else
    let b := h.get ⟨wrr.current % h.length, Nat.mod_lt _ (by omega)⟩
    if b.weight.toNat ≤ wrr.currentWeight + 1 then
      (some b, ⟨wrr.current + 1, 0⟩)
    else
      (some b, ⟨wrr.current, wrr.currentWeight + 1⟩)

/-- Weight of the backend the cursor `i` designates in the healthy
snapshot `h`, as a natural number. -/
def wrrWt (h : List Backend) (i : ℕ) : ℕ :=
  ((h.getD (i % h.length) default).weight).toNat

/-- One step of the weighted-round-robin state `(i, w)` over a fixed
healthy snapshot (the state update of `nextBackend`). -/
def wrrStep (h : List Backend) (s : ℕ × ℕ) : ℕ × ℕ :=
  if wrrWt h s.1 ≤ s.2 + 1 then (s.1 + 1, 0) else (s.1, s.2 + 1)

/-- The state after `k` calls starting from `s`. -/
def wrrRun (h : List Backend) (s : ℕ × ℕ) (k : ℕ) : ℕ × ℕ :=
  (wrrStep h)^[k] s

/-- The index into `h` selected by call `k` (0-based) starting from `s`. -/
def wrrOut (h : List Backend) (s : ℕ × ℕ) (k : ℕ) : ℕ :=
  (wrrRun h s k).1 % h.length

/-- Sum of the weights of the `r` blocks starting at cursor `i`. -/
def wrrBlockSum (h : List Backend) (i r : ℕ) : ℕ :=
  ∑ t ∈ Finset.range r, wrrWt h (i + t)

/-- The total weight `Σ_b weight(b)` of the healthy snapshot. -/
def wrrTotalWeight (h : List Backend) : ℕ :=
  wrrBlockSum h 0 h.length

/-- The indices selected by calls `t, t+1, …, t+len-1` starting from `s`. -/
def wrrWindow (h : List Backend) (s : ℕ × ℕ) : ℕ → ℕ → List ℕ
  | _, 0 => []
  | t, len + 1 => wrrOut h s t :: wrrWindow h s (t + 1) len

/-- Every block weight is at least 1 when all weights are. -/
theorem wrrWt_pos (h : List Backend) (hne : h ≠ [])
    (hw : ∀ b ∈ h, 1 ≤ b.weight) (i : ℕ) : 1 ≤ wrrWt h i := by
  have hlen : 0 < h.length := List.length_pos.mpr hne
  have hlt : i % h.length < h.length := Nat.mod_lt _ hlen
  have hg : h.getD (i % h.length) default = h[i % h.length] :=
    List.getD_eq_getElem h default hlt
  have hmem : h[i % h.length] ∈ h := List.getElem_mem hlt
  have := hw _ hmem
  unfold wrrWt
  rw [hg]
  omega

/-- Shifting the cursor by the snapshot length leaves weights alone. -/
theorem wrrWt_add_length (h : List Backend) (i : ℕ) :
    wrrWt h (i + h.length) = wrrWt h i := by
  unfold wrrWt
  rw [Nat.add_mod_right]

/-- Run addition: later calls act on the state of earlier calls. -/
theorem wrrRun_add (h : List Backend) (s : ℕ × ℕ) (a b : ℕ) :
    wrrRun h s (a + b) = wrrRun h (wrrRun h s b) a :=
  Function.iterate_add_apply (wrrStep h) a b s

/-- Within a block (counter below the block's weight) the state advances
only in its counter. -/
theorem wrrRun_within (h : List Backend) (i u : ℕ) (hu : u < wrrWt h i) :
    wrrRun h (i, 0) u = (i, u) := by
  induction u with
  | zero => rfl
  | succ u ih =>
    have hu' : u < wrrWt h i := by omega
    have hstep : wrrRun h (i, 0) (u + 1) = wrrStep h (wrrRun h (i, 0) u) :=
      Function.iterate_succ_apply' (wrrStep h) u (i, 0)
    rw [hstep, ih hu']
    unfold wrrStep
    have : ¬ wrrWt h i ≤ u + 1 := by omega
    simp [this]

/-- A full block of `wrrWt h i` calls advances the cursor by one and
resets the counter. -/
theorem wrrRun_block (h : List Backend) (i : ℕ) (hpos : 1 ≤ wrrWt h i) :
    wrrRun h (i, 0) (wrrWt h i) = (i + 1, 0) := by
  obtain ⟨u, hu⟩ : ∃ u, wrrWt h i = u + 1 := ⟨wrrWt h i - 1, by omega⟩
  rw [hu]
  have hstep : wrrRun h (i, 0) (u + 1) = wrrStep h (wrrRun h (i, 0) u) :=
    Function.iterate_succ_apply' (wrrStep h) u (i, 0)
  rw [hstep, wrrRun_within h i u (by omega)]
  unfold wrrStep
  have : wrrWt h i ≤ u + 1 := by omega
  simp [this]

/-- Running `r` whole blocks from `(i, 0)` advances the cursor by `r`. -/
theorem wrrRun_blockSum (h : List Backend) (hne : h ≠ [])
    (hw : ∀ b ∈ h, 1 ≤ b.weight) (i r : ℕ) :
    wrrRun h (i, 0) (wrrBlockSum h i r) = (i + r, 0) := by
  induction r with
  | zero => simp [wrrBlockSum, wrrRun]
  | succ r ih =>
    have hsum : wrrBlockSum h i (r + 1) = wrrBlockSum h i r + wrrWt h (i + r) :=
      Finset.sum_range_succ _ _
    rw [hsum, add_comm, wrrRun_add, ih,
      wrrRun_block h (i + r) (wrrWt_pos h hne hw (i + r))]
    rfl

/-- The sum of one whole cycle of blocks does not depend on where the
cycle starts. -/
theorem wrrBlockSum_shift (h : List Backend) (hne : h ≠ []) (i : ℕ) :
    wrrBlockSum h i h.length = wrrBlockSum h (i + 1) h.length := by
  obtain ⟨m, hm⟩ : ∃ m, h.length = m + 1 :=
    ⟨h.length - 1, by have := List.length_pos.mpr hne; omega⟩
  rw [hm]
  have hA : wrrBlockSum h i (m + 1)
      = (∑ t ∈ Finset.range m, wrrWt h (i + (t + 1))) + wrrWt h (i + 0) :=
    Finset.sum_range_succ' _ _
  have hB : wrrBlockSum h (i + 1) (m + 1)
      = (∑ t ∈ Finset.range m, wrrWt h ((i + 1) + t)) + wrrWt h ((i + 1) + m) :=
    Finset.sum_range_succ _ _
  have hcongr : (∑ t ∈ Finset.range m, wrrWt h (i + (t + 1)))
      = ∑ t ∈ Finset.range m, wrrWt h ((i + 1) + t) := by
    refine Finset.sum_congr rfl ?_
    intro t _
    congr 1
    omega
  have hlast : wrrWt h ((i + 1) + m) = wrrWt h (i + 0) := by
    have h1 : (i + 1) + m = (i + 0) + h.length := by omega
    rw [h1, wrrWt_add_length]
  rw [hA, hB, hcongr, hlast]

/-- Every full cycle sums to the total weight. -/
theorem wrrBlockSum_full (h : List Backend) (hne : h ≠ []) (i : ℕ) :
    wrrBlockSum h i h.length = wrrTotalWeight h := by
  induction i with
  | zero => rfl
  | succ i ih => rw [← wrrBlockSum_shift h hne i, ih]

/-- One step commutes with shifting the cursor by the snapshot length. -/
theorem wrrStep_shift (h : List Backend) (s : ℕ × ℕ) :
    wrrStep h (s.1 + h.length, s.2) = ((wrrStep h s).1 + h.length, (wrrStep h s).2) := by
  unfold wrrStep
  rw [wrrWt_add_length]
  by_cases hc : wrrWt h s.1 ≤ s.2 + 1 <;> simp [hc] <;> omega

/-- Runs commute with shifting the cursor by the snapshot length. -/
theorem wrrRun_shift (h : List Backend) (s : ℕ × ℕ) (k : ℕ) :
    wrrRun h (s.1 + h.length, s.2) k
      = ((wrrRun h s k).1 + h.length, (wrrRun h s k).2) := by
  induction k with
  | zero => rfl
  | succ k ih =>
    have h1 : wrrRun h (s.1 + h.length, s.2) (k + 1)
        = wrrStep h (wrrRun h (s.1 + h.length, s.2) k) :=
      Function.iterate_succ_apply' _ _ _
    have h2 : wrrRun h s (k + 1) = wrrStep h (wrrRun h s k) :=
      Function.iterate_succ_apply' _ _ _
    rw [h1, ih, h2]
    exact wrrStep_shift h (wrrRun h s k)

/-- The selection sequence from the initial state is periodic with period
the total weight. -/
theorem wrrOut_periodic (h : List Backend) (hne : h ≠ [])
    (hw : ∀ b ∈ h, 1 ≤ b.weight) (k : ℕ) :
    wrrOut h (0, 0) (wrrTotalWeight h + k) = wrrOut h (0, 0) k := by
  unfold wrrOut
  have h1 : wrrRun h (0, 0) (wrrTotalWeight h + k)
      = wrrRun h (wrrRun h (0, 0) (wrrTotalWeight h)) k := by
    rw [add_comm]
    exact wrrRun_add h (0, 0) k (wrrTotalWeight h)
  have h2 : wrrRun h (0, 0) (wrrTotalWeight h) = (h.length, 0) := by
    have := wrrRun_blockSum h hne hw 0 h.length
    unfold wrrTotalWeight
    simpa using this
  have h3 : ((0 : ℕ) + h.length, (0 : ℕ)) = (h.length, (0 : ℕ)) := by simp
  rw [h1, h2, ← h3, wrrRun_shift h (0, 0) k]
  exact Nat.add_mod_right _ _

/-- A window of `len + 1` calls is a window of `len` calls plus one. -/
theorem wrrWindow_snoc (h : List Backend) (s : ℕ × ℕ) (len t : ℕ) :
    wrrWindow h s t (len + 1) = wrrWindow h s t len ++ [wrrOut h s (t + len)] := by
  induction len generalizing t with
  | zero => simp [wrrWindow]
  | succ len ih =>
    have h1 : wrrWindow h s t (len + 1 + 1)
        = wrrOut h s t :: wrrWindow h s (t + 1) (len + 1) := rfl
    have h2 : wrrWindow h s t (len + 1) = wrrOut h s t :: wrrWindow h s (t + 1) len := rfl
    have harg : t + 1 + len = t + (len + 1) := by omega
    rw [h1, ih, h2, harg]
    simp

/-- Windows concatenate. -/
theorem wrrWindow_append (h : List Backend) (s : ℕ × ℕ) (a : ℕ) :
    ∀ (t b : ℕ), wrrWindow h s t (a + b) = wrrWindow h s t a ++ wrrWindow h s (t + a) b := by
  induction a with
  | zero => intro t b; simp [wrrWindow]
  | succ a ih =>
    intro t b
    have h1 : a + 1 + b = (a + b) + 1 := by omega
    rw [h1]
    have h2 : wrrWindow h s t (a + b + 1) = wrrOut h s t :: wrrWindow h s (t + 1) (a + b) := rfl
    have h3 : wrrWindow h s t (a + 1) = wrrOut h s t :: wrrWindow h s (t + 1) a := rfl
    have harg : t + 1 + a = t + (a + 1) := by omega
    rw [h2, h3, ih (t + 1) b, harg]
    simp

/-- A window whose selections are all `c` is a replicate. -/
theorem wrrWindow_const (h : List Backend) (s : ℕ × ℕ) (c : ℕ) :
    ∀ (len t : ℕ), (∀ v, v < len → wrrOut h s (t + v) = c) →
      wrrWindow h s t len = List.replicate len c := by
  intro len
  induction len with
  | zero => intro t _; rfl
  | succ len ih =>
    intro t hall
    have h1 : wrrWindow h s t (len + 1) = wrrOut h s t :: wrrWindow h s (t + 1) len := rfl
    have h0 : wrrOut h s t = c := by simpa using hall 0 (by omega)
    have hrest : wrrWindow h s (t + 1) len = List.replicate len c := by
      refine ih (t + 1) ?_
      intro v hv
      have := hall (v + 1) (by omega)
      simpa [Nat.add_assoc, Nat.add_comm 1 v] using this
    rw [h1, h0, hrest]
    rfl

/-- Within block `r` (cursor `r`, counter running through the block), the
selection is `r` itself. -/
theorem wrrOut_in_block (h : List Backend) (hne : h ≠ [])
    (hw : ∀ b ∈ h, 1 ≤ b.weight) (r : ℕ) (hr : r < h.length)
    (v : ℕ) (hv : v < wrrWt h r) :
    wrrOut h (0, 0) (wrrBlockSum h 0 r + v) = r := by
  unfold wrrOut
  have h1 : wrrRun h (0, 0) (wrrBlockSum h 0 r + v)
      = wrrRun h (wrrRun h (0, 0) (wrrBlockSum h 0 r)) v := by
    rw [add_comm]
    exact wrrRun_add h (0, 0) v (wrrBlockSum h 0 r)
  have h2 : wrrRun h (0, 0) (wrrBlockSum h 0 r) = (r, 0) := by
    simpa using wrrRun_blockSum h hne hw 0 r
  rw [h1, h2, wrrRun_within h r v hv]
  exact Nat.mod_eq_of_lt hr

/-- Counting inside the initial `r` whole blocks: index `j` occurs
`wrrWt h j` times if its block is among the first `r`, else not at all. -/
theorem wrrWindow_base_count (h : List Backend) (hne : h ≠ [])
    (hw : ∀ b ∈ h, 1 ≤ b.weight) :
    ∀ r, r ≤ h.length → ∀ j, j < h.length →
      (wrrWindow h (0, 0) 0 (wrrBlockSum h 0 r)).count j
        = if j < r then wrrWt h j else 0 := by
  intro r
  induction r with
  | zero =>
    intro _ j _
    simp [wrrBlockSum, wrrWindow]
  | succ r ih =>
    intro hr j hj
    have hsum : wrrBlockSum h 0 (r + 1) = wrrBlockSum h 0 r + wrrWt h (0 + r) :=
      Finset.sum_range_succ _ _
    have hsum' : wrrBlockSum h 0 (r + 1) = wrrBlockSum h 0 r + wrrWt h r := by
      simpa using hsum
    have hsplit : wrrWindow h (0, 0) 0 (wrrBlockSum h 0 r + wrrWt h r)
        = wrrWindow h (0, 0) 0 (wrrBlockSum h 0 r)
          ++ wrrWindow h (0, 0) (wrrBlockSum h 0 r) (wrrWt h r) := by
      have := wrrWindow_append h (0, 0) (wrrBlockSum h 0 r) 0 (wrrWt h r)
      simpa using this
    have hrepl : wrrWindow h (0, 0) (wrrBlockSum h 0 r) (wrrWt h r)
        = List.replicate (wrrWt h r) r := by
      refine wrrWindow_const h (0, 0) r (wrrWt h r) (wrrBlockSum h 0 r) ?_
      intro v hv
      exact wrrOut_in_block h hne hw r (by omega) v hv
    rw [hsum', hsplit, hrepl, List.count_append, ih (by omega) j hj,
      List.count_replicate]
    by_cases hjr' : j = r
    · subst hjr'
      simp
    · by_cases hjr : j < r
      · have hlt : j < r + 1 := by omega
        simp [hjr, hjr', hlt]
        omega
      · have hlt : ¬ j < r + 1 := by omega
        simp [hjr, hjr', hlt]
        omega

/-- Sliding a total-weight-sized window one call forward preserves all
selection counts (periodicity). -/
theorem wrrWindow_count_shift (h : List Backend) (hne : h ≠ [])
    (hw : ∀ b ∈ h, 1 ≤ b.weight) (t j : ℕ) :
    (wrrWindow h (0, 0) (t + 1) (wrrTotalWeight h)).count j
      = (wrrWindow h (0, 0) t (wrrTotalWeight h)).count j := by
  cases hW : wrrTotalWeight h with
  | zero => rfl
  | succ m =>
    have hsnoc : wrrWindow h (0, 0) (t + 1) (m + 1)
        = wrrWindow h (0, 0) (t + 1) m ++ [wrrOut h (0, 0) (t + 1 + m)] :=
      wrrWindow_snoc h (0, 0) m (t + 1)
    have hcons : wrrWindow h (0, 0) t (m + 1)
        = wrrOut h (0, 0) t :: wrrWindow h (0, 0) (t + 1) m := rfl
    have hper : wrrOut h (0, 0) (t + 1 + m) = wrrOut h (0, 0) t := by
      have harg : t + 1 + m = wrrTotalWeight h + t := by omega
      rw [harg]
      exact wrrOut_periodic h hne hw t
    rw [hsnoc, hcons, hper, List.count_append, List.count_cons]
    simp [List.count_cons]

/-- Every total-weight-sized window has the same counts as the initial
one. -/
theorem wrrWindow_count_start (h : List Backend) (hne : h ≠ [])
    (hw : ∀ b ∈ h, 1 ≤ b.weight) (t j : ℕ) :
    (wrrWindow h (0, 0) t (wrrTotalWeight h)).count j
      = (wrrWindow h (0, 0) 0 (wrrTotalWeight h)).count j := by
  induction t with
  | zero => rfl
  | succ t ih => rw [wrrWindow_count_shift h hne hw t j, ih]

/-- Weighted fairness at the index level: over any total-weight-sized
window of the run from the initial state, index `j` is selected exactly
`wrrWt h j` times. -/
theorem wrrWindow_count (h : List Backend) (hne : h ≠ [])
    (hw : ∀ b ∈ h, 1 ≤ b.weight) (t j : ℕ) (hj : j < h.length) :
    (wrrWindow h (0, 0) t (wrrTotalWeight h)).count j = wrrWt h j := by
  rw [wrrWindow_count_start h hne hw t j]
  have := wrrWindow_base_count h hne hw h.length le_rfl j hj
  simpa [wrrTotalWeight, hj] using this

/-- The states of the actual selector after `k` calls on a fixed pool. -/
def wrrStates (p : Pool) (s : WeightedRoundRobin) (k : ℕ) : WeightedRoundRobin :=
  (fun st => (st.nextBackend p).2)^[k] s

/-- The backend returned by the selector's call number `k` (0-based) on a
fixed pool. -/
def wrrSelections (p : Pool) (s : WeightedRoundRobin) (k : ℕ) : Option Backend :=
  ((wrrStates p s k).nextBackend p).1

/-- On a non-empty healthy snapshot the selector returns the backend the
cursor designates. -/
theorem wrr_nextBackend_fst (p : Pool) (hne : p.getHealthyBackends ≠ []) (i w : ℕ) :
    ((WeightedRoundRobin.mk i w).nextBackend p).1
      = some (p.getHealthyBackends.getD
          (i % p.getHealthyBackends.length) default) := by
  have hlen : ¬ p.getHealthyBackends.length = 0 := by
    have := List.length_pos.mpr hne
    omega
  have hlt : i % p.getHealthyBackends.length < p.getHealthyBackends.length :=
    Nat.mod_lt _ (by omega)
  have hgd : p.getHealthyBackends.getD (i % p.getHealthyBackends.length) default
      = p.getHealthyBackends[i % p.getHealthyBackends.length] :=
    List.getD_eq_getElem _ _ hlt
  by_cases hc : (p.getHealthyBackends[i % p.getHealthyBackends.length]).weight
      ≤ (w : ℤ) + 1 <;>
    · unfold WeightedRoundRobin.nextBackend
      rw [dif_neg hlen, hgd]
      simp [hc]

/-- On a non-empty healthy snapshot the selector's state update is the
abstract step: increment the counter; on reaching the weight, reset it
and advance the cursor. -/
theorem wrr_nextBackend_snd (p : Pool) (hne : p.getHealthyBackends ≠ []) (i w : ℕ) :
    ((WeightedRoundRobin.mk i w).nextBackend p).2
      = ⟨(wrrStep p.getHealthyBackends (i, w)).1,
         (wrrStep p.getHealthyBackends (i, w)).2⟩ := by
  have hlen : ¬ p.getHealthyBackends.length = 0 := by
    have := List.length_pos.mpr hne
    omega
  have hlt : i % p.getHealthyBackends.length < p.getHealthyBackends.length :=
    Nat.mod_lt _ (by omega)
  have hgd : p.getHealthyBackends.getD (i % p.getHealthyBackends.length) default
      = p.getHealthyBackends[i % p.getHealthyBackends.length] :=
    List.getD_eq_getElem _ _ hlt
  by_cases hc : (p.getHealthyBackends[i % p.getHealthyBackends.length]).weight
      ≤ (w : ℤ) + 1 <;>
    · unfold WeightedRoundRobin.nextBackend wrrStep wrrWt
      rw [dif_neg hlen, hgd]
      simp [hc]

/-- The selector's state after `k` calls is the abstract run. -/
theorem wrrStates_eq (p : Pool) (hne : p.getHealthyBackends ≠ []) (i w k : ℕ) :
    wrrStates p ⟨i, w⟩ k
      = ⟨(wrrRun p.getHealthyBackends (i, w) k).1,
         (wrrRun p.getHealthyBackends (i, w) k).2⟩ := by
  induction k with
  | zero => rfl
  | succ k ih =>
    have h1 : wrrStates p ⟨i, w⟩ (k + 1)
        = ((wrrStates p ⟨i, w⟩ k).nextBackend p).2 :=
      Function.iterate_succ_apply' _ _ _
    have h2 : wrrRun p.getHealthyBackends (i, w) (k + 1)
        = wrrStep p.getHealthyBackends (wrrRun p.getHealthyBackends (i, w) k) :=
      Function.iterate_succ_apply' _ _ _
    rw [h1, ih, h2]
    exact wrr_nextBackend_snd p hne _ _

/-- The selector's call number `k` returns the backend at the abstract
output index. -/
theorem wrrSelections_eq (p : Pool) (hne : p.getHealthyBackends ≠ []) (i w k : ℕ) :
    wrrSelections p ⟨i, w⟩ k
      = some (p.getHealthyBackends.getD
          (wrrOut p.getHealthyBackends (i, w) k) default) := by
  unfold wrrSelections
  rw [wrrStates_eq p hne i w k]
  exact wrr_nextBackend_fst p hne _ _

/-- Every index in a window is in range. -/
theorem wrrWindow_mem_lt (h : List Backend) (hne : h ≠ []) (s : ℕ × ℕ) :
    ∀ (len t : ℕ), ∀ x ∈ wrrWindow h s t len, x < h.length := by
  intro len
  induction len with
  | zero => intro t x hx; simp [wrrWindow] at hx
  | succ len ih =>
    intro t x hx
    have h1 : wrrWindow h s t (len + 1) = wrrOut h s t :: wrrWindow h s (t + 1) len := rfl
    rw [h1] at hx
    rcases List.mem_cons.mp hx with rfl | hx
    · exact Nat.mod_lt _ (List.length_pos.mpr hne)
    · exact ih (t + 1) x hx

/-- A range-map of selections is the `getD`-image of a window. -/
theorem wrr_range_map_eq_window (h : List Backend) (s : ℕ × ℕ) {α : Type}
    (g : ℕ → α) : ∀ (len t : ℕ),
    (List.range len).map (fun k => g (wrrOut h s (t + k)))
      = (wrrWindow h s t len).map g := by
  intro len
  induction len with
  | zero => intro t; rfl
  | succ len ih =>
    intro t
    rw [List.range_succ_eq_map]
    have h1 : wrrWindow h s t (len + 1) = wrrOut h s t :: wrrWindow h s (t + 1) len := rfl
    rw [h1]
    simp only [List.map_cons, List.map_map]
    congr 1
    rw [← ih (t + 1)]
    refine List.map_congr_left ?_
    intro k _
    simp only [Function.comp_apply]
    have harg : t + Nat.succ k = t + 1 + k := by omega
    rw [harg]

/-- Counting a backend among `getD`-images of in-range indices is
counting its index, when the snapshot has no duplicates. -/
theorem count_map_getD (h : List Backend) (hnd : h.Nodup) (j : ℕ) (hj : j < h.length) :
    ∀ L : List ℕ, (∀ x ∈ L, x < h.length) →
      (L.map (fun x => some (h.getD x default))).count (some (h.get ⟨j, hj⟩))
        = L.count j := by
  intro L
  induction L with
  | nil => intro _; rfl
  | cons x xs ih =>
    intro hall
    have hx : x < h.length := hall x (List.mem_cons_self x xs)
    have hrest := ih (fun y hy => hall y (List.mem_cons_of_mem x hy))
    have hiff : (h.getD x default = h.get ⟨j, hj⟩) ↔ x = j := by
      rw [List.getD_eq_getElem _ _ hx]
      have hget : h[x] = h.get ⟨x, hx⟩ := by simp
      rw [hget, List.Nodup.get_inj_iff hnd]
      exact ⟨fun hq => by simpa using hq, fun hq => by simp [hq]⟩
    by_cases hxj : x = j
    · have hgd : h.getD x default = h.get ⟨j, hj⟩ := hiff.mpr hxj
      have hgd2 : h.getD j default = h.get ⟨j, hj⟩ := hxj ▸ hgd
      simp only [List.map_cons, List.count_cons, hrest, beq_iff_eq, hgd, hxj]
      simp
      simpa using hgd2
    · have hgd : ¬ h.getD x default = h.get ⟨j, hj⟩ := fun hq => hxj (hiff.mp hq)
      simp only [List.map_cons, List.count_cons, hrest, beq_iff_eq, hgd, hxj]
      simp
      simpa using hgd

/-- The per-call selections over a window are the `getD`-images of the
abstract index window. -/
theorem wrr_selections_window (p : Pool) (hne : p.getHealthyBackends ≠ [])
    (t len : ℕ) :
    (List.range len).map (fun k => wrrSelections p ⟨0, 0⟩ (t + k))
      = (wrrWindow p.getHealthyBackends (0, 0) t len).map
          (fun x => some (p.getHealthyBackends.getD x default)) := by
  refine Eq.trans (List.map_congr_left ?_)
    (wrr_range_map_eq_window p.getHealthyBackends (0, 0)
      (fun x => some (p.getHealthyBackends.getD x default)) len t)
  intro k _
  exact wrrSelections_eq p hne 0 0 (t + k)

/-- C6: on the stable healthy pool `[A(weight 3), B(weight 1)]` the
weighted-round-robin selector's first eight calls return
`A A A B A A A B`; in general (healthy snapshot non-empty) each call
returns `h[i mod |h|]` and performs the spec's counter/cursor update
(`wrrStep`); and over any window of `Σ weights` consecutive calls of the
run from the initial state, each healthy backend is selected exactly its
weight's number of times (weights ≥ 1, distinct backends). -/
theorem weightedRoundRobin_spec :
    ((List.range 8).map (wrrSelections (Pool.mk
        [Backend.mk "a" 3 true false ∅ 0 0, Backend.mk "b" 1 true false ∅ 0 0]) ⟨0, 0⟩)
      = [some (Backend.mk "a" 3 true false ∅ 0 0), some (Backend.mk "a" 3 true false ∅ 0 0),
         some (Backend.mk "a" 3 true false ∅ 0 0), some (Backend.mk "b" 1 true false ∅ 0 0),
         some (Backend.mk "a" 3 true false ∅ 0 0), some (Backend.mk "a" 3 true false ∅ 0 0),
         some (Backend.mk "a" 3 true false ∅ 0 0), some (Backend.mk "b" 1 true false ∅ 0 0)]) ∧
    (∀ (p : Pool) (i w : ℕ), p.getHealthyBackends ≠ [] →
      ((WeightedRoundRobin.mk i w).nextBackend p).1
        = some (p.getHealthyBackends.getD (i % p.getHealthyBackends.length) default) ∧
      ((WeightedRoundRobin.mk i w).nextBackend p).2
        = ⟨(wrrStep p.getHealthyBackends (i, w)).1,
           (wrrStep p.getHealthyBackends (i, w)).2⟩) ∧
    (∀ p : Pool, p.getHealthyBackends ≠ [] →
      (∀ b ∈ p.getHealthyBackends, 1 ≤ b.weight) →
      p.getHealthyBackends.Nodup →
      ∀ (t j : ℕ) (hj : j < p.getHealthyBackends.length),
        ((List.range (wrrTotalWeight p.getHealthyBackends)).map
            (fun k => wrrSelections p ⟨0, 0⟩ (t + k))).count
          (some (p.getHealthyBackends.get ⟨j, hj⟩))
          = (p.getHealthyBackends.get ⟨j, hj⟩).weight.toNat) := by
  refine ⟨?_, ?_, ?_⟩
  · decide
  · intro p i w hne
    exact ⟨wrr_nextBackend_fst p hne i w, wrr_nextBackend_snd p hne i w⟩
  · intro p hne hw hnd t j hj
    rw [wrr_selections_window p hne t (wrrTotalWeight p.getHealthyBackends)]
    rw [count_map_getD p.getHealthyBackends hnd j hj _
      (wrrWindow_mem_lt p.getHealthyBackends hne (0, 0) _ t)]
    rw [wrrWindow_count p.getHealthyBackends hne hw t j hj]
    unfold wrrWt
    rw [Nat.mod_eq_of_lt hj, List.getD_eq_getElem _ _ hj]
    simp

/-- Witness for C6, instantiating the fairness clause on the pool
`[A(3), B(1)]`: over the first `Σ weights = 4` calls, backend `A` (index
0) is selected exactly 3 times. -/
theorem weightedRoundRobin_spec_witness :
    ((List.range (wrrTotalWeight (Pool.mk [Backend.mk "a" 3 true false ∅ 0 0,
          Backend.mk "b" 1 true false ∅ 0 0]).getHealthyBackends)).map
        (fun k => wrrSelections (Pool.mk [Backend.mk "a" 3 true false ∅ 0 0,
          Backend.mk "b" 1 true false ∅ 0 0]) ⟨0, 0⟩ (0 + k))).count
      (some ((Pool.mk [Backend.mk "a" 3 true false ∅ 0 0,
          Backend.mk "b" 1 true false ∅ 0 0]).getHealthyBackends.get ⟨0, by decide⟩))
      = ((Pool.mk [Backend.mk "a" 3 true false ∅ 0 0,
          Backend.mk "b" 1 true false ∅ 0 0]).getHealthyBackends.get
            ⟨0, by decide⟩).weight.toNat :=
  weightedRoundRobin_spec.2.2 (Pool.mk [Backend.mk "a" 3 true false ∅ 0 0,
      Backend.mk "b" 1 true false ∅ 0 0])
    (by decide) (by decide) (by decide) 0 0 (by decide)
